import Mathlib

/-!
Verification of the Felix Poly-Sin backend core (trait store and analysis
orchestrator) against its specification.

The embedding translates `src/backend/services/trait_manager.py`,
the response-processing part of `src/backend/services/felix_engine.py`, and the
`/api/analyze` error mapping of `src/backend/main.py`.

Modelling conventions:
* JSON values are the inductive `JValue`.  A JSON number carries both its
  numeric value (an exact rational, idealising the Python float) and the text
  Python's `str()` produces for it, since the code both compares weights
  (`w > 0`) and renders them into prompt text (`f"{s}: {w}"`).  Faithful
  binary-float formatting is out of scope; on the short decimal literals the
  system exchanges the two agree.
* Python dicts become association lists `List (String × _)` in insertion
  order (Python dicts preserve insertion order); `alookup` and `dictInsert`
  model `d[k]` access and `d[k] = v` assignment.
* Trait candidates and stored traits are modelled as JSON objects (field
  lists), the shape the persisted-state contract prescribes
  (`traits: mapping of trait key → {definition, sin_weights, complexity_score}`
  plus arbitrary extra fields).
* Durable storage is an explicit write log: `TMState.disk` records every
  document passed to `_save`, so "storage untouched" is `disk` unchanged.
* Fallible code returns `Except`: `assimilate` on a library without a
  `"traits"` key raises `KeyError` exactly as the unguarded
  `self._library["traits"]` does.
-/

set_option maxRecDepth 20000

namespace Felix

/-- A JSON value, as exchanged between the oracle, the trait store and disk.
A number `num text val` carries the Python `str()` rendering `text` alongside
its exact numeric value `val`. -/
inductive JValue where
  | null
  | bool (b : Bool)
  | num (text : String) (val : ℚ)
  | str (s : String)
  | arr (elems : List JValue)
  | obj (fields : List (String × JValue))

/-- Python dict lookup `d.get(k)` / `k in d` on an association list:
returns the value stored under the first (and in a dict, only) matching key. -/
def alookup {α : Type} : List (String × α) → String → Option α
  | [], _ => none
  | (k1, v) :: rest, k => if k1 = k then some v else alookup rest k

/-- Python dict assignment `d[k] = v`: replaces the value in place if the key
is present, otherwise appends the new binding at the end (insertion order). -/
def dictInsert {α : Type} : List (String × α) → String → α → List (String × α)
  | [], k, v => [(k, v)]
  | (k1, v1) :: rest, k, v =>
    if k1 = k then (k1, v) :: rest else (k1, v1) :: dictInsert rest k v

mutual
/-- Python `repr()` of a JSON-shaped value, as used by `str()` on containers.
String escaping inside `repr` is not modelled (no claim renders a string that
needs escapes). -/
def pyRepr : JValue → String
  | .null => "None"
  | .bool b => if b then "True" else "False"
  | .num t _ => t
  | .str s => "\x27" ++ s ++ "\x27"
  | .arr xs => "[" ++ pyReprElems xs ++ "]"
  | .obj fs => "\x7b" ++ pyReprFields fs ++ "\x7d"
def pyReprElems : List JValue → String
  | [] => ""
  | [x] => pyRepr x
  | x :: y :: rest => pyRepr x ++ ", " ++ pyReprElems (y :: rest)
def pyReprFields : List (String × JValue) → String
  | [] => ""
  | [p] => "\x27" ++ p.1 ++ "\x27: " ++ pyRepr p.2
  | p :: q :: rest =>
    "\x27" ++ p.1 ++ "\x27: " ++ pyRepr p.2 ++ ", " ++ pyReprFields (q :: rest)
end

/-- Python `str()` of a JSON-shaped value, as interpolated by f-strings:
a string renders as itself, every other value as its `repr`. -/
def pyStr : JValue → String
  | .str s => s
  | .null => pyRepr .null
  | .bool b => pyRepr (.bool b)
  | .num t v => pyRepr (.num t v)
  | .arr xs => pyRepr (.arr xs)
  | .obj fs => pyRepr (.obj fs)

/-- A stored or proposed trait: the field list of its JSON object. -/
abbrev TraitData := List (String × JValue)

/-- The in-memory trait library document.  `meta` is opaque metadata;
`traits?` is the value of the top-level `"traits"` key, or `none` when a
persisted document lacks that key. -/
structure Library where
  meta : JValue
  traits? : Option (List (String × TraitData))

/-- The trait manager's world: the in-memory library plus the log of
documents written to durable storage. -/
structure TMState where
  library : Library
  disk : List Library

/-- Models `TraitManager._save` (trait_manager.py lines 32-36): persists the
current in-memory library to durable storage. -/
def saveLibrary (s : TMState) : TMState :=
  { s with disk := s.disk ++ [s.library] }

/-- Models `TraitManager.get_library` (trait_manager.py lines 38-40). -/
def get_library (s : TMState) : Library :=
  s.library

/-- Models `TraitManager.get_traits` (trait_manager.py lines 42-44):
`self._library.get("traits", {})`. -/
def get_traits (lib : Library) : List (String × TraitData) :=
  lib.traits?.getD []

/-- Field access on a trait value inside `get_knowledge_base_string`:
`data.get("sin_weights", {})` then `.items()`.  On a JSON object this yields
its field list; the code would raise `AttributeError` on a non-object trait,
a corner no claim exercises. -/
def jFields : JValue → List (String × JValue)
  | .obj fs => fs
  | _ => []

/-- The Python comparison `w > 0` on a weight value: numeric weights compare
by value, booleans coerce (`True > 0`), and the remaining shapes (where
Python would raise `TypeError`, a corner no claim exercises) yield `false`. -/
def jGtZero : JValue → Bool
  | .num _ q => decide (0 < q)
  | .bool b => b
  | _ => false

/-- One `f"{s}: {w}"` fragment of the weight summary. -/
def weightPairString (p : String × JValue) : String :=
  p.1 ++ ": " ++ pyStr p.2

/-- The `", ".join(f"{s}: {w}" for s, w in weights.items() if w > 0)`
expression of `get_knowledge_base_string` (trait_manager.py line 58). -/
def weightString (data : TraitData) : String :=
  String.intercalate ", "
    (((jFields ((alookup data "sin_weights").getD (.obj []))).filter
        (fun p => jGtZero p.2)).map weightPairString)

/-- One summary line of `get_knowledge_base_string`
(trait_manager.py lines 59-63). -/
def knowledgeLine (key : String) (data : TraitData) : String :=
  "- " ++ key ++ ": " ++ pyStr ((alookup data "definition").getD (.str "No definition")) ++
    " [Weights: " ++ weightString data ++ "] (complexity: " ++
    pyStr ((alookup data "complexity_score").getD (.num "0" 0)) ++ ")"

/-- Models `TraitManager.get_knowledge_base_string`
(trait_manager.py lines 46-64). -/
def get_knowledge_base_string (lib : Library) : String :=
  let traits := get_traits lib
  if traits.isEmpty then "(No traits learned yet)"
  else String.intercalate "\n" (traits.map (fun p => knowledgeLine p.1 p.2))

/-- The validation gate of `assimilate` (trait_manager.py line 76):
`"definition" in trait_data and "sin_weights" in trait_data`. -/
def isValidCandidate (v : TraitData) : Bool :=
  (alookup v "definition").isSome && (alookup v "sin_weights").isSome

/-- The candidate loop of `assimilate` (trait_manager.py lines 71-78), acting
on the current traits dict and returning the final dict together with the
`added` list in presentation order. -/
def assimilateGo (traits : List (String × TraitData)) :
    List (String × TraitData) → List (String × TraitData) × List String
  | [] => (traits, [])
  | (k, v) :: rest =>
    if (alookup traits k).isSome then assimilateGo traits rest
    else if isValidCandidate v then
      let r := assimilateGo (traits ++ [(k, v)]) rest
      (r.1, k :: r.2)
    else assimilateGo traits rest

/-- Whitespace characters stripped by Python `str.strip()` and matched by the
regex class `\s` (the ASCII part; the non-ASCII Unicode whitespace Python also
accepts never occurs in the exchanged texts). -/
def isPyWs (c : Char) : Bool :=
  c = ' ' || c = '\t' || c = '\n' || c = '\r' || c = '\x0b' || c = '\x0c'

/-- Python `str.strip()`: drop leading and trailing whitespace. -/
def stripChars (l : List Char) : List Char :=
  ((l.dropWhile isPyWs).reverse.dropWhile isPyWs).reverse

/-- The three-backtick fence token. -/
def fence3 : List Char := ['\x60', '\x60', '\x60']

/-- Boolean prefix test on character lists (decidable-equality version of
`List.isPrefixOf`, kept definitionally transparent for the proofs). -/
def isPrefixCh : List Char → List Char → Bool
  | [], _ => true
  | _ :: _, [] => false
  | a :: as, b :: bs => if a = b then isPrefixCh as bs else false

/-- The optional `(?:json)?` language tag of the leading-fence regex
`^(backticks)(?:json)?\s*` in `analyze` (felix_engine.py line 96). -/
def dropJsonTag (l : List Char) : List Char :=
  if isPrefixCh ['j', 's', 'o', 'n'] l then l.drop 4 else l

/-- The trailing-fence substitution `re.sub(r"\s*(backticks)$", "", _)` of
`analyze` (felix_engine.py line 97).  The text it is applied to has already
been stripped of trailing whitespace, so the `$` anchor can only match at the
very end of the string. -/
def stripTrailingFence (l : List Char) : List Char :=
  if isPrefixCh fence3 l.reverse then ((l.reverse.drop 3).dropWhile isPyWs).reverse
  else l

/-- The response normalisation of `analyze` (felix_engine.py lines 92-97):
`raw_text = response.text.strip()`, then, when the stripped text starts with a
fence, removal of the leading fence token (with optional `json` tag and
following whitespace) and of the trailing fence token (with preceding
whitespace). -/
def normalizeResponse (l : List Char) : List Char :=
  if isPrefixCh fence3 (stripChars l) then
    stripTrailingFence ((dropJsonTag ((stripChars l).drop 3)).dropWhile isPyWs)
  else stripChars l

/-- String-level wrapper of `normalizeResponse`. -/
def normalizeText (s : String) : String :=
  String.mk (normalizeResponse s.data)

/-- JSON whitespace accepted between tokens by `json.loads`. -/
def isJsonWs (c : Char) : Bool :=
  c = ' ' || c = '\t' || c = '\n' || c = '\r'

/-- String-literal body scanner of the JSON parser: consumes characters up to
the closing quote, decoding the common escapes.  (`\uXXXX`, `\b` and `\f`
escapes are not modelled; none occur in the exchanged texts.) -/
def parseStringBody : List Char → List Char → Except String (String × List Char)
  | [], _ => .error "Unterminated string"
  | c :: rest, acc =>
    if c = '\x22' then .ok (String.mk acc.reverse, rest)
    else if c = '\\' then
      match rest with
      | [] => .error "Unterminated string"
      | e :: r2 =>
        if e = 'n' then parseStringBody r2 ('\n' :: acc)
        else if e = 't' then parseStringBody r2 ('\t' :: acc)
        else if e = 'r' then parseStringBody r2 ('\r' :: acc)
        else if e = '\x22' then parseStringBody r2 ('\x22' :: acc)
        else if e = '\\' then parseStringBody r2 ('\\' :: acc)
        else if e = '/' then parseStringBody r2 ('/' :: acc)
        else .error "Invalid escape"
    else parseStringBody rest (c :: acc)

/-- Numeric value of a list of decimal digit characters. -/
def digitsVal (ds : List Char) : Nat :=
  ds.foldl (fun a c => a * 10 + (c.toNat - 48)) 0

/-- Number scanner of the JSON parser, following the `json` module's grammar
`-?(0|[1-9][0-9]*)(\.[0-9]+)?([eE][-+]?[0-9]+)?`.  The produced `JValue.num`
carries the consumed literal as its rendering (Python's `str()` agrees with
the literal on the canonical short decimals the system exchanges) and its
exact rational value.  `NaN`/`Infinity` are not modelled. -/
def parseNumber (l : List Char) : Except String (JValue × List Char) :=
  let (sign, l1) : (Bool × List Char) :=
    match l with
    | '-' :: r => (true, r)
    | _ => (false, l)
  let intDigits :=
    match l1 with
    | '0' :: _ => ['0']
    | _ => l1.takeWhile Char.isDigit
  if intDigits.isEmpty then .error "Expecting value"
  else
    let r1 := l1.drop intDigits.length
    let (fracDigits, r2, isFloat1) : (List Char × List Char × Bool) :=
      match r1 with
      | '.' :: rf => (rf.takeWhile Char.isDigit, rf.dropWhile Char.isDigit, true)
      | _ => ([], r1, false)
    if isFloat1 && fracDigits.isEmpty then .error "Expecting digits"
    else
      let (expDigits, expNeg, r3, isFloat2) : (List Char × Bool × List Char × Bool) :=
        match r2 with
        | 'e' :: '-' :: re => (re.takeWhile Char.isDigit, true, re.dropWhile Char.isDigit, true)
        | 'e' :: '+' :: re => (re.takeWhile Char.isDigit, false, re.dropWhile Char.isDigit, true)
        | 'e' :: re => (re.takeWhile Char.isDigit, false, re.dropWhile Char.isDigit, true)
        | 'E' :: '-' :: re => (re.takeWhile Char.isDigit, true, re.dropWhile Char.isDigit, true)
        | 'E' :: '+' :: re => (re.takeWhile Char.isDigit, false, re.dropWhile Char.isDigit, true)
        | 'E' :: re => (re.takeWhile Char.isDigit, false, re.dropWhile Char.isDigit, true)
        | _ => ([], false, r2, false)
      if isFloat2 && expDigits.isEmpty then .error "Expecting digits"
      else
        let fl := fracDigits.length
        let baseNum : Int := (digitsVal intDigits * 10 ^ fl + digitsVal fracDigits : Nat)
        let numDen : Int × Nat :=
          if !isFloat2 then (baseNum, 10 ^ fl)
          else if expNeg then (baseNum, 10 ^ fl * 10 ^ digitsVal expDigits)
          else (baseNum * ((10 ^ digitsVal expDigits : Nat) : Int), 10 ^ fl)
        let v : ℚ := mkRat (if sign then -numDen.1 else numDen.1) numDen.2
        let consumed := l.take (l.length - r3.length)
        .ok (.num (String.mk consumed) v, r3)

mutual
/-- Recursive-descent value parser modelling `json.loads`.  `fuel` bounds the
recursion depth; every recursive call consumes at least one input character
first, so `input length + 1` fuel never runs out.  Error messages abbreviate
Python's (which append line/column positions). -/
def parseVal : Nat → List Char → Except String (JValue × List Char)
  | 0, _ => .error "Expecting value"
  | fuel + 1, l =>
    match l.dropWhile isJsonWs with
    | [] => .error "Expecting value"
    | c :: rest =>
      if c = '\x7b' then
        match rest.dropWhile isJsonWs with
        | '\x7d' :: r2 => .ok (.obj [], r2)
        | r1 => parseMembers fuel r1 []
      else if c = '[' then
        match rest.dropWhile isJsonWs with
        | ']' :: r2 => .ok (.arr [], r2)
        | r1 => parseElems fuel r1 []
      else if c = '\x22' then
        match parseStringBody rest [] with
        | .error e => .error e
        | .ok (s, r1) => .ok (.str s, r1)
      else if c = 't' then
        if isPrefixCh ['r', 'u', 'e'] rest then .ok (.bool true, rest.drop 3)
        else .error "Expecting value"
      else if c = 'f' then
        if isPrefixCh ['a', 'l', 's', 'e'] rest then .ok (.bool false, rest.drop 4)
        else .error "Expecting value"
      else if c = 'n' then
        if isPrefixCh ['u', 'l', 'l'] rest then .ok (.null, rest.drop 3)
        else .error "Expecting value"
      else parseNumber (c :: rest)

/-- Object-member loop of the parser: `"key": value` pairs separated by
commas, closed by a brace. -/
def parseMembers (fuel : Nat) (l : List Char) (acc : List (String × JValue)) :
    Except String (JValue × List Char) :=
  match fuel with
  | 0 => .error "Expecting property name enclosed in double quotes"
  | fuel + 1 =>
    match l.dropWhile isJsonWs with
    | '\x22' :: r1 =>
      match parseStringBody r1 [] with
      | .error e => .error e
      | .ok (key, r2) =>
        match r2.dropWhile isJsonWs with
        | ':' :: r3 =>
          match parseVal fuel r3 with
          | .error e => .error e
          | .ok (v, r4) =>
            match r4.dropWhile isJsonWs with
            | ',' :: r5 => parseMembers fuel r5 (acc ++ [(key, v)])
            | '\x7d' :: r5 => .ok (.obj (acc ++ [(key, v)]), r5)
            | _ => .error "Expecting delimiter"
        | _ => .error "Expecting colon delimiter"
    | _ => .error "Expecting property name enclosed in double quotes"

/-- Array-element loop of the parser: values separated by commas, closed by a
bracket. -/
def parseElems (fuel : Nat) (l : List Char) (acc : List JValue) :
    Except String (JValue × List Char) :=
  match fuel with
  | 0 => .error "Expecting value"
  | fuel + 1 =>
    match parseVal fuel l with
    | .error e => .error e
    | .ok (v, r1) =>
      match r1.dropWhile isJsonWs with
      | ',' :: r2 => parseElems fuel r2 (acc ++ [v])
      | ']' :: r2 => .ok (.arr (acc ++ [v]), r2)
      | _ => .error "Expecting delimiter"
end

/-- Models `json.loads` on a whole document: one value, with nothing but
whitespace allowed after it. -/
def json_loads (s : String) : Except String JValue :=
  match parseVal (s.data.length + 1) s.data with
  | .error e => .error e
  | .ok (v, rest) =>
    match rest.dropWhile isJsonWs with
    | [] => .ok v
    | _ => .error "Extra data"

/-- The Python exceptions the embedded code can raise.  All of these are
built-in exception classes (`json.JSONDecodeError` is a `ValueError`
subclass); the source defines no custom exception classes, in particular no
`MalformedResponseError`, `StorageError` or `OracleTransportError`. -/
inductive PyExn where
  | jsonDecodeError (msg : String)
  | keyError (key : String)
  | attributeError (msg : String)

/-- Models `TraitManager.assimilate` (trait_manager.py lines 66-82).  With a
non-empty candidate dict and no `"traits"` key in the library, the first loop
iteration's unguarded `self._library["traits"]` raises `KeyError`.  Otherwise
the loop runs, and `_save` is called exactly when `added` is non-empty. -/
def assimilate (s : TMState) (new_traits : List (String × TraitData)) :
    Except PyExn (TMState × List String) :=
  match s.library.traits? with
  | none =>
    match new_traits with
    | [] => .ok (s, [])
    | _ :: _ => .error (.keyError "traits")
  | some tr =>
    let r := assimilateGo tr new_traits
    let lib2 : Library := { s.library with traits? := some r.1 }
    if r.2.isEmpty then .ok ({ s with library := lib2 }, r.2)
    else .ok (saveLibrary { s with library := lib2 }, r.2)

/-- Python `str(e)` for the modelled exceptions, as interpolated by
`f"Analysis failed: {e}"` in main.py. -/
def pyExnMessage : PyExn → String
  | .jsonDecodeError msg => msg
  | .keyError key => "\x27" ++ key ++ "\x27"
  | .attributeError msg => msg

/-- The `new_trait_definitions` payload handed to `assimilate`
(felix_engine.py lines 102-103), viewed as a candidate dict: the parsed JSON
object's fields, each proposal value taken as its JSON object's field list.
(A non-object proposal value is modelled as an empty field list, hence
invalid and skipped; Python's exotic `in`-operator behaviour on such values
is outside this embedding, and no claim exercises it.) -/
def jvalueCandidates (v : JValue) : List (String × TraitData) :=
  (jFields v).map (fun p => (p.1, jFields p.2))

/-- Models `FelixEngine.analyze` (felix_engine.py lines 70-106) from the
point the oracle's raw response text is in hand (the prompt assembly and the
network call itself are external I/O, abstracted as the `response_text`
parameter): normalise the text, parse it with `json.loads` (a failure raises
the built-in `json.JSONDecodeError`), feed `new_trait_definitions` (absent →
empty dict) to `assimilate`, and return the parsed document with the
`_newly_added_traits` key attached. -/
def analyze (s : TMState) (response_text : String) :
    Except PyExn (JValue × TMState) :=
  match json_loads (normalizeText response_text) with
  | .error msg => .error (.jsonDecodeError msg)
  | .ok result =>
    match result with
    | .obj fields =>
      let newDefs := (alookup fields "new_trait_definitions").getD (.obj [])
      match assimilate s (jvalueCandidates newDefs) with
      | .error e => .error e
      | .ok (s2, added) =>
        .ok (.obj (dictInsert fields "_newly_added_traits" (.arr (added.map .str))), s2)
    | _ => .error (.attributeError "result.get on a non-object response")

/-- The HTTP error response produced by the API boundary. -/
structure HTTPError where
  status : Nat
  detail : String

/-- Models the `/api/analyze` route handler of main.py (lines 73-86) around a
successfully constructed engine: any exception `e` escaping `engine.analyze`
is mapped to the generic `HTTPException(500, f"Analysis failed: {e}")`. -/
def api_analyze (s : TMState) (response_text : String) :
    Except HTTPError (JValue × TMState) :=
  match analyze s response_text with
  | .ok r => .ok r
  | .error e => .error { status := 500, detail := "Analysis failed: " ++ pyExnMessage e }

/-! ### Association-list and assimilation-loop lemmas -/

theorem alookup_append_some {α : Type} {l1 : List (String × α)} {k : String} {v : α}
    (l2 : List (String × α))
    (h : alookup l1 k = some v) : alookup (l1 ++ l2) k = some v := by
  induction l1 with
  | nil => exact absurd h (by simp [alookup])
  | cons p rest ih =>
    obtain ⟨k1, v1⟩ := p
    by_cases hk : k1 = k
    · simpa [alookup, hk] using h
    · simp only [List.cons_append, alookup, if_neg hk] at h ⊢
      exact ih h

theorem alookup_append_none {α : Type} {l1 : List (String × α)} {k : String}
    (l2 : List (String × α))
    (h : alookup l1 k = none) : alookup (l1 ++ l2) k = alookup l2 k := by
  induction l1 with
  | nil => simp
  | cons p rest ih =>
    obtain ⟨k1, v1⟩ := p
    by_cases hk : k1 = k
    · simp [alookup, hk] at h
    · simp only [List.cons_append, alookup, if_neg hk] at h ⊢
      exact ih h

theorem assimilateGo_preserves {k : String} {v : TraitData}
    (tr cs : List (String × TraitData)) (h : alookup tr k = some v) :
    alookup (assimilateGo tr cs).1 k = some v ∧ k ∉ (assimilateGo tr cs).2 := by
  induction cs generalizing tr with
  | nil => exact ⟨h, by simp [assimilateGo]⟩
  | cons p rest ih =>
    obtain ⟨k1, v1⟩ := p
    simp only [assimilateGo]
    by_cases h1 : (alookup tr k1).isSome
    · simp only [if_pos h1]
      exact ih tr h
    · simp only [if_neg h1]
      by_cases h2 : isValidCandidate v1
      · simp only [if_pos h2]
        have hne : k1 ≠ k := by
          intro he
          subst he
          rw [h] at h1
          simp at h1
        have hrec := ih (tr ++ [(k1, v1)]) (alookup_append_some [(k1, v1)] h)
        refine ⟨hrec.1, ?_⟩
        simp only [List.mem_cons, not_or]
        exact ⟨fun he => hne he.symm, hrec.2⟩
      · simp only [if_neg h2]
        exact ih tr h

theorem alookup_append_single_ne {α : Type} {l : List (String × α)} {k k1 : String} {v1 : α}
    (h : k1 ≠ k) : alookup (l ++ [(k1, v1)]) k = alookup l k := by
  cases hl : alookup l k with
  | some v => exact alookup_append_some _ hl
  | none => rw [alookup_append_none _ hl]; simp [alookup, h]

theorem assimilateGo_untouched {k : String}
    (tr cs : List (String × TraitData)) (hk : k ∉ cs.map Prod.fst) :
    alookup (assimilateGo tr cs).1 k = alookup tr k ∧ k ∉ (assimilateGo tr cs).2 := by
  induction cs generalizing tr with
  | nil => exact ⟨rfl, by simp [assimilateGo]⟩
  | cons p rest ih =>
    obtain ⟨k1, v1⟩ := p
    simp only [List.map_cons, List.mem_cons, not_or] at hk
    obtain ⟨hne, hrest⟩ := hk
    simp only [assimilateGo]
    by_cases h1 : (alookup tr k1).isSome
    · simp only [if_pos h1]
      exact ih tr hrest
    · simp only [if_neg h1]
      by_cases h2 : isValidCandidate v1
      · simp only [if_pos h2]
        have hrec := ih (tr ++ [(k1, v1)]) hrest
        refine ⟨?_, ?_⟩
        · rw [hrec.1, alookup_append_single_ne (fun he => hne he.symm)]
        · simp only [List.mem_cons, not_or]
          exact ⟨hne, hrec.2⟩
      · simp only [if_neg h2]
        exact ih tr hrest

theorem assimilateGo_skip_invalid (k : String) (v : TraitData)
    (hv : isValidCandidate v = false) (pre post tr : List (String × TraitData)) :
    assimilateGo tr (pre ++ (k, v) :: post) = assimilateGo tr (pre ++ post) := by
  induction pre generalizing tr with
  | nil =>
    simp only [List.nil_append, assimilateGo]
    by_cases h1 : (alookup tr k).isSome
    · rw [if_pos h1]
    · rw [if_neg h1, if_neg (by simp [hv])]
  | cons p rest ih =>
    obtain ⟨k1, v1⟩ := p
    simp only [List.cons_append, assimilateGo, List.append_eq]
    by_cases h1 : (alookup tr k1).isSome
    · simp only [if_pos h1]
      exact ih tr
    · simp only [if_neg h1]
      by_cases h2 : isValidCandidate v1
      · simp only [if_pos h2, ih (tr ++ [(k1, v1)])]
      · simp only [if_neg h2]
        exact ih tr

theorem alookup_eq_none_of_append {α : Type} {l1 l2 : List (String × α)} {k : String}
    (h : alookup (l1 ++ l2) k = none) : alookup l1 k = none := by
  cases hl : alookup l1 k with
  | none => rfl
  | some v => rw [alookup_append_some l2 hl] at h; exact absurd h (by simp)

theorem assimilateGo_mono_isSome {k : String}
    (tr cs : List (String × TraitData)) (h : (alookup tr k).isSome = true) :
    (alookup (assimilateGo tr cs).1 k).isSome = true := by
  obtain ⟨v, hv⟩ := Option.isSome_iff_exists.mp h
  rw [(assimilateGo_preserves tr cs hv).1]
  rfl

theorem assimilateGo_valid_present {k : String} {v : TraitData}
    (tr cs : List (String × TraitData)) (hmem : (k, v) ∈ cs)
    (hval : isValidCandidate v = true) :
    (alookup (assimilateGo tr cs).1 k).isSome = true := by
  induction cs generalizing tr with
  | nil => exact absurd hmem (by simp)
  | cons p rest ih =>
    obtain ⟨k1, v1⟩ := p
    simp only [assimilateGo]
    rcases List.mem_cons.mp hmem with he | hm
    · obtain ⟨hk, hv⟩ := Prod.mk.injEq .. ▸ he
      subst hk
      subst hv
      by_cases h1 : (alookup tr k).isSome
      · rw [if_pos h1]
        exact assimilateGo_mono_isSome tr rest h1
      · rw [if_neg h1, if_pos hval]
        refine assimilateGo_mono_isSome (tr ++ [(k, v)]) rest ?_
        rw [alookup_append_none _ (Option.not_isSome_iff_eq_none.mp h1)]
        simp [alookup]
    · by_cases h1 : (alookup tr k1).isSome
      · rw [if_pos h1]
        exact ih tr hm
      · by_cases h2 : isValidCandidate v1
        · rw [if_neg h1, if_pos h2]
          exact ih (tr ++ [(k1, v1)]) hm
        · rw [if_neg h1, if_neg h2]
          exact ih tr hm

theorem assimilateGo_noop (tr cs : List (String × TraitData))
    (h : ∀ p ∈ cs, isValidCandidate p.2 = true → (alookup tr p.1).isSome = true) :
    assimilateGo tr cs = (tr, []) := by
  induction cs with
  | nil => rfl
  | cons p rest ih =>
    obtain ⟨k1, v1⟩ := p
    simp only [assimilateGo]
    by_cases h1 : (alookup tr k1).isSome
    · rw [if_pos h1]
      exact ih (fun q hq => h q (List.mem_cons_of_mem _ hq))
    · have hv : isValidCandidate v1 = false := by
        cases hc : isValidCandidate v1 with
        | false => rfl
        | true => exact absurd (h (k1, v1) (List.mem_cons_self _ _) hc) h1
      rw [if_neg h1, if_neg (by simp [hv])]
      exact ih (fun q hq => h q (List.mem_cons_of_mem _ hq))

theorem assimilateGo_added_nil (tr cs : List (String × TraitData))
    (h : (assimilateGo tr cs).2 = []) : (assimilateGo tr cs).1 = tr := by
  induction cs generalizing tr with
  | nil => rfl
  | cons p rest ih =>
    obtain ⟨k1, v1⟩ := p
    simp only [assimilateGo] at h ⊢
    by_cases h1 : (alookup tr k1).isSome
    · rw [if_pos h1] at h ⊢
      exact ih tr h
    · by_cases h2 : isValidCandidate v1
      · rw [if_neg h1, if_pos h2] at h
        exact absurd h (by simp)
      · rw [if_neg h1, if_neg h2] at h ⊢
        exact ih tr h

theorem assimilateGo_mem_iff {k : String} (tr cs : List (String × TraitData)) :
    k ∈ (assimilateGo tr cs).2 ↔
      (alookup tr k = none ∧ (alookup (assimilateGo tr cs).1 k).isSome = true) := by
  induction cs generalizing tr with
  | nil =>
    simp only [assimilateGo]
    constructor
    · intro h
      exact absurd h (by simp)
    · rintro ⟨h1, h2⟩
      rw [h1] at h2
      exact absurd h2 (by simp)
  | cons p rest ih =>
    obtain ⟨k1, v1⟩ := p
    simp only [assimilateGo]
    by_cases h1 : (alookup tr k1).isSome
    · rw [if_pos h1]
      exact ih tr
    · have h1n : alookup tr k1 = none := Option.not_isSome_iff_eq_none.mp h1
      by_cases h2 : isValidCandidate v1
      · rw [if_neg h1, if_pos h2]
        constructor
        · intro hmem
          rcases List.mem_cons.mp hmem with he | hm
          · subst he
            refine ⟨h1n, ?_⟩
            refine assimilateGo_mono_isSome (tr ++ [(k, v1)]) rest ?_
            rw [alookup_append_none _ h1n]
            simp [alookup]
          · have hr := (ih (tr ++ [(k1, v1)])).mp hm
            exact ⟨alookup_eq_none_of_append hr.1, hr.2⟩
        · rintro ⟨hnone, hsome⟩
          by_cases hk : k = k1
          · rw [hk]
            exact List.mem_cons_self _ _
          · refine List.mem_cons_of_mem _ ((ih (tr ++ [(k1, v1)])).mpr ⟨?_, hsome⟩)
            rw [alookup_append_single_ne (fun he => hk he.symm)]
            exact hnone
      · rw [if_neg h1, if_neg h2]
        exact ih tr

theorem assimilateGo_sublist (tr cs : List (String × TraitData)) :
    (assimilateGo tr cs).2.Sublist (cs.map Prod.fst) := by
  induction cs generalizing tr with
  | nil => simp [assimilateGo]
  | cons p rest ih =>
    obtain ⟨k1, v1⟩ := p
    simp only [assimilateGo, List.map_cons]
    by_cases h1 : (alookup tr k1).isSome
    · rw [if_pos h1]
      exact (ih tr).cons _
    · by_cases h2 : isValidCandidate v1
      · rw [if_neg h1, if_pos h2]
        exact (ih (tr ++ [(k1, v1)])).cons₂ _
      · rw [if_neg h1, if_neg h2]
        exact (ih tr).cons _

theorem library_eta (lib : Library) (tr : List (String × TraitData))
    (h : lib.traits? = some tr) : { lib with traits? := some tr } = lib := by
  cases lib with
  | mk m t =>
    simp only [Library.mk.injEq, true_and]
    exact h.symm

theorem assimilate_some_noop (s1 : TMState) (tr1 cands : List (String × TraitData))
    (htr : s1.library.traits? = some tr1)
    (hpres : ∀ p ∈ cands, isValidCandidate p.2 = true → (alookup tr1 p.1).isSome = true) :
    assimilate s1 cands = .ok (s1, []) := by
  have hno := assimilateGo_noop tr1 cands hpres
  simp only [assimilate, htr, hno, List.isEmpty_nil, if_true]
  rw [library_eta s1.library tr1 htr]

/-! ### Sample data used by the concrete witnesses -/

/-- A well-formed stored trait. -/
def dBrood : TraitData :=
  [("definition", .str "dwells on slights"),
   ("sin_weights", .obj [("pride", .num "0.0" 0), ("wrath", .num "0.6" (mkRat 3 5))]),
   ("complexity_score", .num "0.4" (mkRat 2 5))]

/-- A different valid trait proposal for the same key. -/
def dOther : TraitData :=
  [("definition", .str "a conflicting rewrite"), ("sin_weights", .obj [])]

/-- A library that already knows the trait `brooding`. -/
def sampleLib : Library :=
  { meta := .obj [], traits? := some [("brooding", dBrood)] }

/-- Trait-manager state holding `sampleLib`, with an empty write log. -/
def sampleS : TMState := { library := sampleLib, disk := [] }

/-! ### Claims -/

/-- C1: for every library state and candidate mapping, a trait key already
present in the library before `assimilate` keeps exactly its previous stored
data after the call (never overwritten or deleted), and does not appear in
the returned newly-added list. -/
theorem assimilate_no_overwrite (s : TMState) (cands : List (String × TraitData))
    (k : String) (v : TraitData) (tr : List (String × TraitData))
    (htr : s.library.traits? = some tr) (hk : alookup tr k = some v) :
    ∃ s2 added, assimilate s cands = .ok (s2, added) ∧
      ∃ tr2, s2.library.traits? = some tr2 ∧ alookup tr2 k = some v ∧ k ∉ added := by
  have hgo := assimilateGo_preserves tr cands hk
  simp only [assimilate, htr]
  split
  · exact ⟨_, _, rfl, _, rfl, hgo.1, hgo.2⟩
  · exact ⟨_, _, rfl, _, rfl, hgo.1, hgo.2⟩

/-- Witness for C1: assimilating a conflicting candidate for the existing key
`brooding` leaves its stored data unchanged and reports nothing added. -/
theorem assimilate_no_overwrite_witness :
    (sampleS.library.traits? = some [("brooding", dBrood)]
      ∧ alookup [("brooding", dBrood)] "brooding" = some dBrood)
    ∧ (∃ s2 added, assimilate sampleS [("brooding", dOther)] = .ok (s2, added) ∧
        ∃ tr2, s2.library.traits? = some tr2 ∧ alookup tr2 "brooding" = some dBrood
          ∧ "brooding" ∉ added) :=
  ⟨⟨rfl, rfl⟩,
    assimilate_no_overwrite sampleS [("brooding", dOther)] "brooding" dBrood
      [("brooding", dBrood)] rfl rfl⟩

/-- A candidate missing the required `sin_weights` field. -/
def dHalf : TraitData := [("definition", .str "only a definition")]

/-- C2: a candidate missing `definition` or `sin_weights` is silently
skipped: the call behaves exactly as if that candidate were absent (so it
raises no error on its account and the other candidates are processed
independently), the candidate's key is not in the newly-added list, and the
library entry for that key is exactly what it was before. -/
theorem assimilate_skips_invalid (s : TMState) (tr pre post : List (String × TraitData))
    (k : String) (v : TraitData)
    (htr : s.library.traits? = some tr)
    (hv : isValidCandidate v = false)
    (hk : k ∉ (pre ++ post).map Prod.fst) :
    assimilate s (pre ++ (k, v) :: post) = assimilate s (pre ++ post) ∧
    ∃ s2 added, assimilate s (pre ++ (k, v) :: post) = .ok (s2, added) ∧ k ∉ added ∧
      ∃ tr2, s2.library.traits? = some tr2 ∧ alookup tr2 k = alookup tr k := by
  have hskip := assimilateGo_skip_invalid k v hv pre post tr
  have hun := assimilateGo_untouched tr (pre ++ post) hk
  constructor
  · simp only [assimilate, htr, hskip]
  · simp only [assimilate, htr, hskip]
    split
    · exact ⟨_, _, rfl, hun.2, _, rfl, hun.1⟩
    · exact ⟨_, _, rfl, hun.2, _, rfl, hun.1⟩

/-- Witness for C2: a candidate with only a `definition` field is dropped
while an independent valid candidate in the same call is processed. -/
theorem assimilate_skips_invalid_witness :
    (sampleS.library.traits? = some [("brooding", dBrood)]
      ∧ isValidCandidate dHalf = false
      ∧ "half_baked" ∉ ([("generous", dOther)] : List (String × TraitData)).map Prod.fst)
    ∧ (assimilate sampleS ([] ++ ("half_baked", dHalf) :: [("generous", dOther)]) =
          assimilate sampleS ([] ++ [("generous", dOther)]) ∧
        ∃ s2 added,
          assimilate sampleS ([] ++ ("half_baked", dHalf) :: [("generous", dOther)]) =
            .ok (s2, added) ∧ "half_baked" ∉ added ∧
          ∃ tr2, s2.library.traits? = some tr2 ∧
            alookup tr2 "half_baked" = alookup [("brooding", dBrood)] "half_baked") :=
  ⟨⟨rfl, rfl, by decide⟩,
    assimilate_skips_invalid sampleS [("brooding", dBrood)] [] [("generous", dOther)]
      "half_baked" dHalf rfl rfl (by decide)⟩

/-- A state with an empty traits mapping and an empty write log. -/
def emptyS : TMState := { library := { meta := .obj [], traits? := some [] }, disk := [] }

/-- The library document holding just the `brooding` trait. -/
def libBrood : Library := { meta := .obj [], traits? := some [("brooding", dBrood)] }

/-- The state reached by assimilating `brooding` into `emptyS`: library
updated and persisted once. -/
def s1Brood : TMState := { library := libBrood, disk := [libBrood] }

/-- C3: assimilate is idempotent: a second call with the same candidate
mapping returns an empty newly-added list and leaves the whole state (the
traits mapping in particular, and even the write log) exactly as after the
first call. -/
theorem assimilate_idempotent (s s1 : TMState) (cands : List (String × TraitData))
    (a1 : List String) (h : assimilate s cands = .ok (s1, a1)) :
    assimilate s1 cands = .ok (s1, []) := by
  cases htr : s.library.traits? with
  | none =>
    simp only [assimilate, htr] at h
    cases cands with
    | nil =>
      simp only [Except.ok.injEq, Prod.mk.injEq] at h
      obtain ⟨hs, -⟩ := h
      subst hs
      simp [assimilate, htr]
    | cons c cs => exact absurd h (by simp)
  | some tr =>
    have hpres : ∀ p ∈ cands, isValidCandidate p.2 = true →
        (alookup (assimilateGo tr cands).1 p.1).isSome = true := by
      intro p hp hv
      exact assimilateGo_valid_present tr cands hp hv
    simp only [assimilate, htr] at h
    split at h
    · simp only [Except.ok.injEq, Prod.mk.injEq] at h
      obtain ⟨hs, -⟩ := h
      subst hs
      exact assimilate_some_noop _ _ cands rfl hpres
    · simp only [Except.ok.injEq, Prod.mk.injEq] at h
      obtain ⟨hs, -⟩ := h
      subst hs
      exact assimilate_some_noop _ _ cands rfl hpres

/-- Witness for C3: assimilating the same singleton candidate mapping twice;
the second call adds nothing and returns the state of the first unchanged. -/
theorem assimilate_idempotent_witness :
    assimilate emptyS [("brooding", dBrood)] = .ok (s1Brood, ["brooding"]) ∧
    assimilate s1Brood [("brooding", dBrood)] = .ok (s1Brood, []) :=
  ⟨rfl, assimilate_idempotent emptyS s1Brood [("brooding", dBrood)] ["brooding"] rfl⟩

/-- C5: assimilate touches durable storage exactly when at least one key was
newly inserted: with an empty newly-added list the whole state (library and
write log) is unchanged, and with a non-empty one exactly one write of the
updated library is appended to the log. -/
theorem assimilate_persist_iff (s s2 : TMState) (cands : List (String × TraitData))
    (added : List String) (h : assimilate s cands = .ok (s2, added)) :
    (added = [] → s2 = s) ∧ (added ≠ [] → s2.disk = s.disk ++ [s2.library]) := by
  cases htr : s.library.traits? with
  | none =>
    simp only [assimilate, htr] at h
    cases cands with
    | nil =>
      simp only [Except.ok.injEq, Prod.mk.injEq] at h
      obtain ⟨hs, ha⟩ := h
      subst hs
      subst ha
      exact ⟨fun _ => rfl, fun hne => absurd rfl hne⟩
    | cons c cs => exact absurd h (by simp)
  | some tr =>
    simp only [assimilate, htr] at h
    split at h
    case isTrue he =>
      simp only [Except.ok.injEq, Prod.mk.injEq] at h
      obtain ⟨hs, ha⟩ := h
      subst hs
      subst ha
      have hnil : (assimilateGo tr cands).2 = [] := List.isEmpty_iff.mp he
      refine ⟨fun _ => ?_, fun hne => absurd hnil hne⟩
      have htr1 := assimilateGo_added_nil tr cands hnil
      show TMState.mk { s.library with traits? := some (assimilateGo tr cands).1 } s.disk = s
      rw [htr1, library_eta s.library tr htr]
    case isFalse he =>
      simp only [Except.ok.injEq, Prod.mk.injEq] at h
      obtain ⟨hs, ha⟩ := h
      subst hs
      subst ha
      refine ⟨fun hnil => absurd (by rw [hnil]; rfl) he, fun _ => rfl⟩

/-- Witness for C5: the insertion run writes the updated library to the log
exactly once. -/
theorem assimilate_persist_iff_witness :
    assimilate emptyS [("brooding", dBrood)] = .ok (s1Brood, ["brooding"]) ∧
    ((["brooding"] = ([] : List String) → s1Brood = emptyS) ∧
      (["brooding"] ≠ ([] : List String) → s1Brood.disk = emptyS.disk ++ [s1Brood.library])) :=
  ⟨rfl, assimilate_persist_iff emptyS s1Brood [("brooding", dBrood)] ["brooding"] rfl⟩

/-- C6: the returned list contains exactly the keys newly inserted by the
call (a key is returned iff it was absent before and is present after), and
it preserves the order in which the candidates were presented (it is a
sublist of the candidate key sequence). -/
theorem assimilate_added_exact (s s2 : TMState) (cands : List (String × TraitData))
    (added : List String) (tr : List (String × TraitData))
    (h : assimilate s cands = .ok (s2, added)) (htr : s.library.traits? = some tr) :
    ∃ tr2, s2.library.traits? = some tr2 ∧
      (∀ k, k ∈ added ↔ (alookup tr k = none ∧ (alookup tr2 k).isSome = true)) ∧
      added.Sublist (cands.map Prod.fst) := by
  simp only [assimilate, htr] at h
  split at h <;>
  · simp only [Except.ok.injEq, Prod.mk.injEq] at h
    obtain ⟨hs, ha⟩ := h
    subst hs
    subst ha
    exact ⟨_, rfl, fun k => assimilateGo_mem_iff tr cands, assimilateGo_sublist tr cands⟩

/-- Witness for C6: of two presented candidates only the valid new one is
reported, in presentation order. -/
theorem assimilate_added_exact_witness :
    assimilate emptyS [("brooding", dBrood), ("half_baked", dHalf)] =
        .ok (s1Brood, ["brooding"]) ∧
    (∃ tr2, s1Brood.library.traits? = some tr2 ∧
      (∀ k, k ∈ ["brooding"] ↔
        (alookup ([] : List (String × TraitData)) k = none ∧ (alookup tr2 k).isSome = true)) ∧
      List.Sublist ["brooding"]
        (([("brooding", dBrood), ("half_baked", dHalf)]).map Prod.fst)) :=
  ⟨rfl, assimilate_added_exact emptyS s1Brood [("brooding", dBrood), ("half_baked", dHalf)]
    ["brooding"] [] rfl rfl⟩

theorem assimilateGo_mem_valid {k : String} {v : TraitData}
    (tr cands : List (String × TraitData))
    (hnd : (cands.map Prod.fst).Nodup) (hmem : (k, v) ∈ cands)
    (hk : k ∈ (assimilateGo tr cands).2) :
    isValidCandidate v = true := by
  cases hval : isValidCandidate v with
  | true => rfl
  | false =>
    obtain ⟨pre, post, hsplit⟩ := List.append_of_mem hmem
    subst hsplit
    rw [assimilateGo_skip_invalid k v hval pre post tr] at hk
    have hnotin : k ∉ (pre ++ post).map Prod.fst := by
      rw [List.map_append, List.map_cons] at hnd
      have hnd2 := (List.perm_middle.nodup_iff).mp hnd
      rw [List.map_append]
      exact (List.nodup_cons.mp hnd2).1
    exact absurd hk (assimilateGo_untouched tr (pre ++ post) hnotin).2

theorem assimilateGo_insert_verbatim {k : String} {v : TraitData}
    (tr cands : List (String × TraitData))
    (hnd : (cands.map Prod.fst).Nodup) (hmem : (k, v) ∈ cands)
    (hnone : alookup tr k = none) (hval : isValidCandidate v = true) :
    alookup (assimilateGo tr cands).1 k = some v := by
  induction cands generalizing tr with
  | nil => exact absurd hmem (by simp)
  | cons p rest ih =>
    obtain ⟨k1, v1⟩ := p
    simp only [List.map_cons, List.nodup_cons] at hnd
    obtain ⟨hk1, hndr⟩ := hnd
    simp only [assimilateGo]
    rcases List.mem_cons.mp hmem with he | hm
    · obtain ⟨hkk, hvv⟩ := Prod.mk.injEq .. ▸ he
      subst hkk
      subst hvv
      rw [if_neg (by simp [hnone]), if_pos hval]
      exact (assimilateGo_preserves (tr ++ [(k, v)]) rest
        (by rw [alookup_append_none _ hnone]; simp [alookup])).1
    · have hne : k1 ≠ k := by
        intro he1
        subst he1
        exact hk1 (List.mem_map_of_mem Prod.fst hm)
      by_cases h1 : (alookup tr k1).isSome
      · rw [if_pos h1]
        exact ih tr hndr hm hnone
      · by_cases h2 : isValidCandidate v1
        · rw [if_neg h1, if_pos h2]
          exact ih (tr ++ [(k1, v1)]) hndr hm
            (by rw [alookup_append_single_ne hne]; exact hnone)
        · rw [if_neg h1, if_neg h2]
          exact ih tr hndr hm hnone

/-- A valid candidate carrying an extra unknown field and an exotic
(non-mapping) `sin_weights` value, to exercise verbatim storage. -/
def dExotic : TraitData :=
  [("definition", .str "hoards snacks"),
   ("sin_weights", .str "not even a mapping"),
   ("complexity_score", .num "0.9" (mkRat 9 10)),
   ("unknown_extra", .arr [.num "1" 1])]

/-- The library holding just the exotic trait. -/
def libExotic : Library :=
  { meta := .obj [], traits? := some [("snack_hoarding", dExotic)] }

/-- The state after assimilating the exotic candidate into `emptyS`. -/
def sExotic : TMState := { library := libExotic, disk := [libExotic] }

/-- C9: a candidate is accepted exactly when its key is new and it merely
carries `definition` and `sin_weights` fields (nothing constrains the
contents of `sin_weights`), and every accepted candidate is stored verbatim:
the library entry is the candidate's full field list, extra unknown fields
included. -/
theorem assimilate_verbatim (s s2 : TMState) (cands : List (String × TraitData))
    (added : List String) (tr : List (String × TraitData)) (k : String) (v : TraitData)
    (h : assimilate s cands = .ok (s2, added))
    (htr : s.library.traits? = some tr)
    (hnd : (cands.map Prod.fst).Nodup)
    (hmem : (k, v) ∈ cands) :
    (k ∈ added ↔ (alookup tr k = none ∧ isValidCandidate v = true)) ∧
    (k ∈ added → ∃ tr2, s2.library.traits? = some tr2 ∧ alookup tr2 k = some v) := by
  simp only [assimilate, htr] at h
  split at h <;>
  · simp only [Except.ok.injEq, Prod.mk.injEq] at h
    obtain ⟨hs, ha⟩ := h
    subst hs
    subst ha
    constructor
    · constructor
      · intro hk
        exact ⟨((assimilateGo_mem_iff tr cands).mp hk).1,
          assimilateGo_mem_valid tr cands hnd hmem hk⟩
      · rintro ⟨hnone, hval⟩
        exact (assimilateGo_mem_iff tr cands).mpr
          ⟨hnone, assimilateGo_valid_present tr cands hmem hval⟩
    · intro hk
      exact ⟨_, rfl, assimilateGo_insert_verbatim tr cands hnd hmem
        ((assimilateGo_mem_iff tr cands).mp hk).1
        (assimilateGo_mem_valid tr cands hnd hmem hk)⟩

/-- Witness for C9: the exotic candidate (extra field, non-mapping
`sin_weights`) is accepted and stored byte-for-byte. -/
theorem assimilate_verbatim_witness :
    (assimilate emptyS [("snack_hoarding", dExotic)] = .ok (sExotic, ["snack_hoarding"])
      ∧ (([("snack_hoarding", dExotic)] : List (String × TraitData)).map Prod.fst).Nodup
      ∧ ("snack_hoarding", dExotic) ∈ [("snack_hoarding", dExotic)])
    ∧ (("snack_hoarding" ∈ ["snack_hoarding"] ↔
          (alookup ([] : List (String × TraitData)) "snack_hoarding" = none
            ∧ isValidCandidate dExotic = true))
        ∧ ("snack_hoarding" ∈ ["snack_hoarding"] →
            ∃ tr2, sExotic.library.traits? = some tr2
              ∧ alookup tr2 "snack_hoarding" = some dExotic)) :=
  ⟨⟨rfl, by decide, List.mem_cons_self _ _⟩,
    assimilate_verbatim emptyS sExotic [("snack_hoarding", dExotic)] ["snack_hoarding"]
      [] "snack_hoarding" dExotic rfl rfl (by decide) (List.mem_cons_self _ _)⟩

/-- The persisted-then-loaded document lacking a top-level `traits` key. -/
def noTraitsS : TMState := { library := { meta := .obj [], traits? := none }, disk := [] }

/-- C10: on a library without a top-level `traits` key, `get_traits` returns
the empty mapping (its access is guarded by `.get`), but `assimilate` with
any non-empty candidate mapping raises `KeyError` from its unguarded
`self._library["traits"]` access; only the empty candidate mapping, which
never reaches that access, succeeds. -/
theorem missing_traits_key (s : TMState) (h : s.library.traits? = none) :
    get_traits s.library = [] ∧
    (∀ cands, cands ≠ [] → assimilate s cands = .error (.keyError "traits")) ∧
    assimilate s [] = .ok (s, []) := by
  refine ⟨by simp [get_traits, h], ?_, by simp [assimilate, h]⟩
  intro cands hne
  cases cands with
  | nil => exact absurd rfl hne
  | cons c cs => simp [assimilate, h]

/-- Witness for C10 at a concrete traits-less document. -/
theorem missing_traits_key_witness :
    noTraitsS.library.traits? = none ∧
    (get_traits noTraitsS.library = [] ∧
      (∀ cands, cands ≠ [] → assimilate noTraitsS cands = .error (.keyError "traits")) ∧
      assimilate noTraitsS [] = .ok (noTraitsS, [])) :=
  ⟨rfl, missing_traits_key noTraitsS rfl⟩

/-- Substring containment, the Python `needle in hay` test on strings
(reducible so that its decidability instance is found for concrete checks). -/
abbrev strContains (needle hay : String) : Prop :=
  needle.data <:+: hay.data

theorem string_data_append (a b : String) : (a ++ b).data = a.data ++ b.data := by
  cases a
  cases b
  rfl

theorem strContains_self (n : String) : strContains n n :=
  ⟨[], [], by simp⟩

theorem strContains_appendL {n a : String} (b : String) (h : strContains n a) :
    strContains n (a ++ b) := by
  obtain ⟨s, t, hst⟩ := h
  exact ⟨s, t ++ b.data, by rw [string_data_append, ← hst]; simp⟩

theorem strContains_appendR {n b : String} (a : String) (h : strContains n b) :
    strContains n (a ++ b) := by
  obtain ⟨s, t, hst⟩ := h
  exact ⟨a.data ++ s, t, by rw [string_data_append, ← hst]; simp⟩

theorem knowledgeLine_contains_key (key : String) (data : TraitData) :
    strContains key (knowledgeLine key data) := by
  unfold knowledgeLine
  exact strContains_appendL _ (strContains_appendL _ (strContains_appendL _
    (strContains_appendL _ (strContains_appendL _ (strContains_appendL _
      (strContains_appendL _ (strContains_appendR _ (strContains_self key))))))))

theorem knowledgeLine_contains_def (key : String) (data : TraitData) (defn : String)
    (h : alookup data "definition" = some (.str defn)) :
    strContains defn (knowledgeLine key data) := by
  unfold knowledgeLine
  rw [h]
  simp only [Option.getD_some, pyStr]
  exact strContains_appendL _ (strContains_appendL _ (strContains_appendL _
    (strContains_appendL _ (strContains_appendL _
      (strContains_appendR _ (strContains_self defn))))))

theorem knowledgeLine_contains_complexity (key : String) (data : TraitData)
    (t : String) (q : ℚ) (h : alookup data "complexity_score" = some (.num t q)) :
    strContains t (knowledgeLine key data) := by
  unfold knowledgeLine
  rw [h]
  simp only [Option.getD_some, pyStr, pyRepr]
  exact strContains_appendL _ (strContains_appendR _ (strContains_self t))

theorem gkbs_lines (lib : Library) (tr : List (String × TraitData))
    (h : lib.traits? = some tr) (hne : tr ≠ []) :
    get_knowledge_base_string lib =
      String.intercalate "\n" (tr.map (fun p => knowledgeLine p.1 p.2)) := by
  unfold get_knowledge_base_string get_traits
  rw [h]
  simp only [Option.getD_some]
  rw [if_neg (by simp [List.isEmpty_iff, hne])]

theorem weightString_formula (data : TraitData) (ws : List (String × JValue))
    (h : alookup data "sin_weights" = some (.obj ws)) :
    weightString data = String.intercalate ", "
      ((ws.filter (fun p => jGtZero p.2)).map weightPairString) := by
  unfold weightString
  rw [h]
  simp only [Option.getD_some, jFields]

/-- C7: for a non-empty library the summary is one `knowledgeLine` per trait
joined by newlines; each line contains the trait key, its definition and its
complexity score; the weight segment is the comma-joined `sin: weight`
rendering of exactly the weights strictly greater than 0; and concretely a
trait with sin_weights pride 0.0 / wrath 0.6 yields a line containing
`wrath: 0.6` and not containing `pride`. -/
theorem knowledge_base_summary_spec :
    (∀ lib tr, lib.traits? = some tr → tr ≠ [] →
        get_knowledge_base_string lib =
          String.intercalate "\n" (tr.map (fun p => knowledgeLine p.1 p.2)))
    ∧ (∀ key data, strContains key (knowledgeLine key data))
    ∧ (∀ key data defn, alookup data "definition" = some (.str defn) →
        strContains defn (knowledgeLine key data))
    ∧ (∀ key data t q, alookup data "complexity_score" = some (.num t q) →
        strContains t (knowledgeLine key data))
    ∧ (∀ data ws, alookup data "sin_weights" = some (.obj ws) →
        weightString data = String.intercalate ", "
          ((ws.filter (fun p => jGtZero p.2)).map weightPairString))
    ∧ (∀ t q, jGtZero (.num t q) = true ↔ 0 < q)
    ∧ (strContains "wrath: 0.6" (knowledgeLine "brooding" dBrood)
        ∧ ¬ strContains "pride" (knowledgeLine "brooding" dBrood)) :=
  ⟨gkbs_lines, knowledgeLine_contains_key, knowledgeLine_contains_def,
    knowledgeLine_contains_complexity, weightString_formula,
    fun t q => by simp [jGtZero],
    by decide, by decide⟩

/-- Witness for C7 at the concrete `brooding` library. -/
theorem knowledge_base_summary_spec_witness :
    (libBrood.traits? = some [("brooding", dBrood)]
      ∧ ([("brooding", dBrood)] : List (String × TraitData)) ≠ []
      ∧ alookup dBrood "definition" = some (.str "dwells on slights")
      ∧ alookup dBrood "sin_weights" =
          some (.obj [("pride", .num "0.0" 0), ("wrath", .num "0.6" (mkRat 3 5))]))
    ∧ get_knowledge_base_string libBrood =
        String.intercalate "\n"
          (([("brooding", dBrood)] : List (String × TraitData)).map
            (fun p => knowledgeLine p.1 p.2))
    ∧ strContains "dwells on slights" (knowledgeLine "brooding" dBrood)
    ∧ weightString dBrood = String.intercalate ", "
        (([("pride", JValue.num "0.0" 0),
           ("wrath", JValue.num "0.6" (mkRat 3 5))].filter
            (fun p => jGtZero p.2)).map weightPairString) :=
  ⟨⟨rfl, List.cons_ne_nil _ _, rfl, rfl⟩,
    knowledge_base_summary_spec.1 libBrood [("brooding", dBrood)] rfl (List.cons_ne_nil _ _),
    knowledge_base_summary_spec.2.2.1 "brooding" dBrood "dwells on slights" rfl,
    knowledge_base_summary_spec.2.2.2.2.1 dBrood
      [("pride", JValue.num "0.0" 0), ("wrath", JValue.num "0.6" (mkRat 3 5))] rfl⟩

/-! ### Whitespace-stripping lemmas for the fence round trip -/

theorem dropWhile_cons_pos {p : Char → Bool} {c : Char} (l : List Char) (h : p c = true) :
    List.dropWhile p (c :: l) = List.dropWhile p l := by
  simp [List.dropWhile_cons, h]

theorem dropWhile_cons_neg {p : Char → Bool} {c : Char} {l : List Char} (h : p c = false) :
    List.dropWhile p (c :: l) = c :: l := by
  simp [List.dropWhile_cons, h]

theorem dropWhile_append_all {p : Char → Bool} {a : List Char} (b : List Char)
    (h : ∀ c ∈ a, p c = true) : List.dropWhile p (a ++ b) = List.dropWhile p b := by
  induction a with
  | nil => rfl
  | cons c rest ih =>
    rw [List.cons_append, dropWhile_cons_pos _ (h c (List.mem_cons_self _ _))]
    exact ih (fun x hx => h x (List.mem_cons_of_mem _ hx))

theorem dropWhile_dropWhile (p : Char → Bool) (l : List Char) :
    List.dropWhile p (List.dropWhile p l) = List.dropWhile p l := by
  induction l with
  | nil => rfl
  | cons c rest ih =>
    cases hp : p c with
    | true =>
      rw [dropWhile_cons_pos _ hp]
      exact ih
    | false => rw [dropWhile_cons_neg hp, dropWhile_cons_neg hp]

theorem dropWhile_head_false {p : Char → Bool} {l : List Char} {c : Char} {t : List Char}
    (h : List.dropWhile p l = c :: t) : p c = false := by
  induction l with
  | nil => exact absurd h (by simp)
  | cons a rest ih =>
    cases hp : p a with
    | true =>
      rw [dropWhile_cons_pos _ hp] at h
      exact ih h
    | false =>
      rw [dropWhile_cons_neg hp] at h
      injection h with h1 h2
      subst h1
      exact hp

theorem dropWhile_fix_head {p : Char → Bool} {c : Char} {t : List Char}
    (h : List.dropWhile p (c :: t) = c :: t) : p c = false := by
  cases hp : p c with
  | false => rfl
  | true =>
    rw [dropWhile_cons_pos _ hp] at h
    have hle : (List.dropWhile p t).length ≤ t.length := (List.dropWhile_sublist p).length_le
    rw [h, List.length_cons] at hle
    omega

theorem dropWhile_eq_strip_append (d : List Char) :
    List.dropWhile isPyWs d
      = stripChars d ++ ((d.dropWhile isPyWs).reverse.takeWhile isPyWs).reverse := by
  conv_lhs => rw [← List.reverse_reverse (d.dropWhile isPyWs)]
  conv_lhs => rw [← List.takeWhile_append_dropWhile isPyWs (d.dropWhile isPyWs).reverse]
  rw [List.reverse_append]
  rfl

theorem stripChars_decomp (d : List Char) :
    ∃ w1 w2, d = w1 ++ stripChars d ++ w2
      ∧ (∀ c ∈ w1, isPyWs c = true) ∧ (∀ c ∈ w2, isPyWs c = true)
      ∧ List.dropWhile isPyWs (stripChars d) = stripChars d
      ∧ List.dropWhile isPyWs (stripChars d).reverse = (stripChars d).reverse := by
  refine ⟨d.takeWhile isPyWs, ((d.dropWhile isPyWs).reverse.takeWhile isPyWs).reverse,
    ?_, fun c hc => List.mem_takeWhile_imp hc,
    fun c hc => List.mem_takeWhile_imp (List.mem_reverse.mp hc), ?_, ?_⟩
  · conv_lhs => rw [← List.takeWhile_append_dropWhile isPyWs d, dropWhile_eq_strip_append d]
    rw [List.append_assoc]
  · cases hsc : stripChars d with
    | nil => rfl
    | cons c t =>
      refine dropWhile_cons_neg ?_
      have hd1 := dropWhile_eq_strip_append d
      rw [hsc, List.cons_append] at hd1
      exact dropWhile_head_false hd1
  · show List.dropWhile isPyWs
        ((List.dropWhile isPyWs ((d.dropWhile isPyWs).reverse)).reverse.reverse)
      = (List.dropWhile isPyWs ((d.dropWhile isPyWs).reverse)).reverse.reverse
    simp only [List.reverse_reverse]
    exact dropWhile_dropWhile isPyWs _

theorem fence3_reverse : fence3.reverse = fence3 := rfl

theorem isPrefixCh_fence3_append (x : List Char) : isPrefixCh fence3 (fence3 ++ x) = true := rfl

theorem drop3_fence3_append (x : List Char) : (fence3 ++ x).drop 3 = x := rfl

theorem stripTrailingFence_append (x : List Char) :
    stripTrailingFence (x ++ fence3) = ((x.reverse.dropWhile isPyWs)).reverse := by
  unfold stripTrailingFence
  rw [List.reverse_append, fence3_reverse,
    if_pos (isPrefixCh_fence3_append x.reverse), drop3_fence3_append]

theorem normalize_trailing_core (d : List Char) :
    stripTrailingFence (List.dropWhile isPyWs (d ++ '\n' :: fence3)) = stripChars d := by
  obtain ⟨w1, w2, hd, hw1, hw2, hfix1, hfix2⟩ := stripChars_decomp d
  have hrw : d ++ '\n' :: fence3 = w1 ++ ((stripChars d ++ w2 ++ ['\n']) ++ fence3) := by
    conv_lhs => rw [hd]
    simp [List.append_assoc]
  rw [hrw, dropWhile_append_all _ hw1]
  cases hsc : stripChars d with
  | nil =>
    rw [show (([] : List Char) ++ w2 ++ ['\n']) ++ fence3 = (w2 ++ ['\n']) ++ fence3 from by simp]
    rw [dropWhile_append_all fence3 ?hall]
    case hall =>
      intro x hx
      rcases List.mem_append.mp hx with hxa | hxb
      · exact hw2 x hxa
      · rw [List.mem_singleton.mp hxb]
        rfl
    rfl
  | cons c t =>
    have hcne : isPyWs c = false := by
      rw [hsc] at hfix1
      exact dropWhile_fix_head hfix1
    rw [show ((c :: t) ++ w2 ++ ['\n']) ++ fence3 = c :: ((t ++ w2 ++ ['\n']) ++ fence3) from by
      simp]
    rw [dropWhile_cons_neg hcne]
    rw [show c :: ((t ++ w2 ++ ['\n']) ++ fence3) = (c :: (t ++ w2 ++ ['\n'])) ++ fence3 from by
      simp]
    rw [stripTrailingFence_append]
    rw [show (c :: (t ++ w2 ++ ['\n'])).reverse = '\n' :: (w2.reverse ++ (c :: t).reverse) from by
      simp]
    rw [dropWhile_cons_pos _ rfl]
    rw [dropWhile_append_all _ (fun x hx => hw2 x (List.mem_reverse.mp hx))]
    rw [hsc] at hfix2
    rw [hfix2, List.reverse_reverse]

theorem stripChars_eq_self (c c2 : Char) (hc : isPyWs c = false) (hc2 : isPyWs c2 = false)
    (mid : List Char) : stripChars (c :: (mid ++ [c2])) = c :: (mid ++ [c2]) := by
  unfold stripChars
  rw [dropWhile_cons_neg hc]
  rw [show (c :: (mid ++ [c2])).reverse = c2 :: (mid.reverse ++ [c]) from by simp]
  rw [dropWhile_cons_neg hc2]
  rw [show (c2 :: (mid.reverse ++ [c])).reverse = c :: (mid ++ [c2]) from by simp]

theorem normalizeResponse_fenced_json (d : List Char) :
    normalizeResponse (fence3 ++ ('j' :: 's' :: 'o' :: 'n' :: '\n' :: (d ++ '\n' :: fence3)))
      = stripChars d := by
  have hW : fence3 ++ ('j' :: 's' :: 'o' :: 'n' :: '\n' :: (d ++ '\n' :: fence3))
      = '\x60' :: ((['\x60', '\x60', 'j', 's', 'o', 'n', '\n']
          ++ (d ++ ['\n', '\x60', '\x60'])) ++ ['\x60']) := by
    simp [fence3]
  have hsS : stripChars (fence3 ++ ('j' :: 's' :: 'o' :: 'n' :: '\n' :: (d ++ '\n' :: fence3)))
      = fence3 ++ ('j' :: 's' :: 'o' :: 'n' :: '\n' :: (d ++ '\n' :: fence3)) := by
    rw [hW]
    exact stripChars_eq_self '\x60' '\x60' rfl rfl _
  unfold normalizeResponse
  rw [hsS, if_pos (isPrefixCh_fence3_append _), drop3_fence3_append,
    show dropJsonTag ('j' :: 's' :: 'o' :: 'n' :: '\n' :: (d ++ '\n' :: fence3))
      = '\n' :: (d ++ '\n' :: fence3) from rfl,
    dropWhile_cons_pos _ rfl]
  exact normalize_trailing_core d

theorem normalizeResponse_fenced_bare (d : List Char) :
    normalizeResponse (fence3 ++ ('\n' :: (d ++ '\n' :: fence3))) = stripChars d := by
  have hW : fence3 ++ ('\n' :: (d ++ '\n' :: fence3))
      = '\x60' :: ((['\x60', '\x60', '\n'] ++ (d ++ ['\n', '\x60', '\x60'])) ++ ['\x60']) := by
    simp [fence3]
  have hsS : stripChars (fence3 ++ ('\n' :: (d ++ '\n' :: fence3)))
      = fence3 ++ ('\n' :: (d ++ '\n' :: fence3)) := by
    rw [hW]
    exact stripChars_eq_self '\x60' '\x60' rfl rfl _
  unfold normalizeResponse
  rw [hsS, if_pos (isPrefixCh_fence3_append _), drop3_fence3_append,
    show dropJsonTag ('\n' :: (d ++ '\n' :: fence3)) = '\n' :: (d ++ '\n' :: fence3) from rfl,
    dropWhile_cons_pos _ rfl]
  exact normalize_trailing_core d

theorem normalizeResponse_plain (d : List Char)
    (h : isPrefixCh fence3 (stripChars d) = false) :
    normalizeResponse d = stripChars d := by
  unfold normalizeResponse
  rw [if_neg (by simp [h])]

/-- C8: wrapping a document in a fenced code block (with or without the
`json` language tag) does not change what `analyze` parses: after the
normalisation step the wrapped response is normalised to exactly the same
text as the unwrapped document, so `json.loads` yields exactly the same
result; the only proviso is that the document does not itself begin with a
fence token (in which case the unwrapped path would strip it too). -/
theorem fence_strip_round_trip (d : String)
    (h : isPrefixCh fence3 (stripChars d.data) = false) :
    (normalizeText ("\x60\x60\x60json\n" ++ d ++ "\n\x60\x60\x60") = normalizeText d
      ∧ normalizeText ("\x60\x60\x60\n" ++ d ++ "\n\x60\x60\x60") = normalizeText d)
    ∧ (json_loads (normalizeText ("\x60\x60\x60json\n" ++ d ++ "\n\x60\x60\x60"))
          = json_loads (normalizeText d)
      ∧ json_loads (normalizeText ("\x60\x60\x60\n" ++ d ++ "\n\x60\x60\x60"))
          = json_loads (normalizeText d)) := by
  obtain ⟨dl⟩ := d
  have hja : ("\x60\x60\x60json\n" ++ String.mk dl ++ "\n\x60\x60\x60").data
      = fence3 ++ ('j' :: 's' :: 'o' :: 'n' :: '\n' :: (dl ++ '\n' :: fence3)) := rfl
  have hba : ("\x60\x60\x60\n" ++ String.mk dl ++ "\n\x60\x60\x60").data
      = fence3 ++ ('\n' :: (dl ++ '\n' :: fence3)) := rfl
  have e1 : normalizeText ("\x60\x60\x60json\n" ++ String.mk dl ++ "\n\x60\x60\x60")
      = normalizeText (String.mk dl) := by
    unfold normalizeText
    rw [hja, normalizeResponse_fenced_json dl,
      show (String.mk dl).data = dl from rfl, normalizeResponse_plain dl h]
  have e2 : normalizeText ("\x60\x60\x60\n" ++ String.mk dl ++ "\n\x60\x60\x60")
      = normalizeText (String.mk dl) := by
    unfold normalizeText
    rw [hba, normalizeResponse_fenced_bare dl,
      show (String.mk dl).data = dl from rfl, normalizeResponse_plain dl h]
  exact ⟨⟨e1, e2⟩, congrArg json_loads e1, congrArg json_loads e2⟩

/-- Witness for C8 at a concrete JSON object document. -/
theorem fence_strip_round_trip_witness :
    isPrefixCh fence3 (stripChars ("\x7b\x22analysis_log\x22: []\x7d" : String).data) = false
    ∧ ((normalizeText ("\x60\x60\x60json\n" ++ "\x7b\x22analysis_log\x22: []\x7d"
            ++ "\n\x60\x60\x60")
          = normalizeText "\x7b\x22analysis_log\x22: []\x7d"
        ∧ normalizeText ("\x60\x60\x60\n" ++ "\x7b\x22analysis_log\x22: []\x7d"
            ++ "\n\x60\x60\x60")
          = normalizeText "\x7b\x22analysis_log\x22: []\x7d")
      ∧ (json_loads (normalizeText ("\x60\x60\x60json\n" ++ "\x7b\x22analysis_log\x22: []\x7d"
            ++ "\n\x60\x60\x60"))
          = json_loads (normalizeText "\x7b\x22analysis_log\x22: []\x7d")
        ∧ json_loads (normalizeText ("\x60\x60\x60\n" ++ "\x7b\x22analysis_log\x22: []\x7d"
            ++ "\n\x60\x60\x60"))
          = json_loads (normalizeText "\x7b\x22analysis_log\x22: []\x7d"))) :=
  ⟨rfl, fence_strip_round_trip "\x7b\x22analysis_log\x22: []\x7d" rfl⟩

/-- Counterexample for C4: on the unparseable oracle response
`"I am not JSON"`, `analyze` fails with Python's built-in
`json.JSONDecodeError` (the source defines no exception classes of its own,
in particular no `MalformedResponseError`), and the `/api/analyze` boundary
flattens it into the stringly-typed generic
`HTTPException(500, "Analysis failed: ...")` — exactly the "plain built-in
parsing exception / stringly-typed generic error" the claim rules out. -/
theorem malformed_response_counterexample :
    analyze emptyS "I am not JSON" = .error (.jsonDecodeError "Expecting value")
    ∧ api_analyze emptyS "I am not JSON" =
        .error { status := 500, detail := "Analysis failed: Expecting value" } :=
  ⟨rfl, rfl⟩

/-- C4 amended: when the response text, after fence-stripping, is not
parseable as JSON, `analyze` fails with the built-in `json.JSONDecodeError`
carrying the parser's message (not a distinguished `MalformedResponseError`
kind), and the API boundary maps it, like every other exception, to the
generic stringly-typed `HTTPException(500, "Analysis failed: ...")`. -/
theorem malformed_response_generic (s : TMState) (text msg : String)
    (h : json_loads (normalizeText text) = .error msg) :
    analyze s text = .error (.jsonDecodeError msg)
    ∧ api_analyze s text =
        .error { status := 500, detail := "Analysis failed: " ++ msg } := by
  have h1 : analyze s text = .error (.jsonDecodeError msg) := by
    unfold analyze
    rw [h]
  refine ⟨h1, ?_⟩
  unfold api_analyze
  rw [h1]
  rfl

/-- Witness for C4's amended claim at a fenced unparseable response. -/
theorem malformed_response_generic_witness :
    json_loads (normalizeText "\x60\x60\x60json\nnot json\x60\x60\x60")
        = .error "Expecting value"
    ∧ (analyze emptyS "\x60\x60\x60json\nnot json\x60\x60\x60"
          = .error (.jsonDecodeError "Expecting value")
      ∧ api_analyze emptyS "\x60\x60\x60json\nnot json\x60\x60\x60" =
          .error { status := 500, detail := "Analysis failed: Expecting value" }) :=
  ⟨rfl, malformed_response_generic emptyS "\x60\x60\x60json\nnot json\x60\x60\x60"
    "Expecting value" rfl⟩

end Felix
